import Mathlib

/-!
# Verification of the Poseidon primitive (halo2 `primitive.rs`)

A shallow embedding of the Poseidon permutation, the duplex sponge state
machine and the `ConstantLength` domain from `halo2_poseidon/src/primitive.rs`,
together with theorems settling the specification claims.

States are `List F` over an arbitrary commutative ring `F` (the source is
generic over a prime field; all operations used are `0`, `+`, `*`).  The Rust
const generics `T`, `RATE` and `L` become ordinary `Nat` arguments, the
type-level `Spec` trait becomes a record of its used methods, and the
`SpongeState` arrays of optionals become `List (Option F)`.
-/

set_option autoImplicit false
set_option linter.unusedSectionVars false

namespace Poseidon

/-- The parts of the Rust `Spec` trait used by `permute` / `Duplex`:
`full_rounds()`, `partial_rounds()` and `sbox`. -/
structure Spec (F : Type) where
  fullRounds : Nat
  partialRounds : Nat
  sbox : F → F

variable {F : Type} [CommRing F]

/-- The inner MDS application of `permute`:
`new_state[i] = Σ_j mds[i][j] * state[j]` (the `i`-th entry comes from row
`i`; the double loop accumulates the products of a row with the state). -/
def apply_mds (mds : List (List F)) (state : List F) : List F :=
  mds.map fun row => (List.zipWith (fun a b => a * b) row state).foldl (· + ·) 0

/-- The `full_round` closure of `permute`: add the round constant to each
word and apply the S-box to it (`*word = S::sbox(*word + rc)` over the zip of
state and constants), then apply the MDS matrix. -/
def full_round (spec : Spec F) (mds : List (List F)) (state rc : List F) : List F :=
  apply_mds mds (List.zipWith (fun w c => spec.sbox (w + c)) state rc)

/-- Apply the S-box to the first word only (`state[0] = S::sbox(state[0])`). -/
def sbox_first (spec : Spec F) : List F → List F
  | [] => []
  | x :: xs => spec.sbox x :: xs

/-- The `part_round` closure of `permute`: add the round constant to each
word, apply the S-box to the first word only, then apply the MDS matrix. -/
def part_round (spec : Spec F) (mds : List (List F)) (state rc : List F) : List F :=
  apply_mds mds (sbox_first spec (List.zipWith (fun w c => w + c) state rc))

/-- The Poseidon permutation (`permute` in the source).  The round schedule is
the chain `repeat full_round (take r_f) ++ repeat part_round (take r_p) ++
repeat full_round (take r_f)` (with `r_f = full_rounds / 2`,
`r_p = partial_rounds`), zipped against `round_constants` — `zip`
short-circuits on the shorter side, exactly as Rust's `Iterator::zip` — and
folded over the state.  `true` tags a full round, `false` a partial one. -/
def permute (spec : Spec F) (mds : List (List F)) (round_constants : List (List F))
    (state : List F) : List F :=
  let r_f := spec.fullRounds / 2
  let r_p := spec.partialRounds
  let rounds : List Bool :=
    List.replicate r_f true ++ List.replicate r_p false ++ List.replicate r_f true
  (rounds.zip round_constants).foldl
    (fun st br => if br.1 then full_round spec mds st br.2 else part_round spec mds st br.2)
    state

/-- The folding closure returned by `ConstantLength::pad_and_add`: zip the
state with the input buffer (`zip` short-circuits at the shorter of the two,
so only the first `RATE` state words can be touched) and add every `Some`
value into the corresponding state word; `None` slots leave the word as is. -/
def pad_and_add : List F → List (Option F) → List F
  | state, [] => state
  | [], _ => []
  | w :: ws, v :: vs =>
    (match v with
      | some value => w + value
      | none => w) :: pad_and_add ws vs

/-- The `poseidon_duplex` function: fold the input buffer into the state, permute, and read
the first `RATE` words of the permuted state back out as a fully-set output
buffer (`output[i] = Some(state[i])` for `i < min RATE T`). -/
def poseidon_duplex (spec : Spec F) (rate : Nat)
    (mds : List (List F)) (round_constants : List (List F))
    (state : List F) (input : List (Option F)) : List F × List (Option F) :=
  let st := pad_and_add state input
  let st := permute spec mds round_constants st
  (st, (List.range rate).map fun i => st[i]?)

/-- The two sponge modes (`Sponge` in the source). -/
inductive Sponge (F : Type) where
  | Absorbing : List (Option F) → Sponge F
  | Squeezing : List (Option F) → Sponge F
deriving DecidableEq, Repr

/-- The `Sponge::absorb` constructor: a fresh absorbing buffer `[None; RATE]` with `val` in
slot 0. -/
def Sponge.absorb (rate : Nat) (val : F) : Sponge F :=
  Sponge.Absorbing ((List.replicate rate (none : Option F)).set 0 (some val))

/-- The duplex sponge (`Duplex` in the source), with the `ConstantLength`
folding rule fixed (the only `Domain` in the file); the type-level spec and
the const generics are passed to the operations instead. -/
structure Duplex (F : Type) where
  sponge : Sponge F
  state : List F
  mds_matrix : List (List F)
  round_constants : List (List F)
deriving Repr

/-- The `Duplex::new` constructor: state all zero except `state[RATE] = initial_capacity_element`,
mode `Absorbing` with an all-unset buffer. -/
def Duplex.new (t rate : Nat) (initial_capacity_element : F)
    (mds : List (List F)) (round_constants : List (List F)) : Duplex F :=
  { sponge := Sponge.Absorbing (List.replicate rate none)
    state := (List.replicate t (0 : F)).set rate initial_capacity_element
    mds_matrix := mds
    round_constants := round_constants }

/-- Write `value` into the first `none` slot (in slot order); `none` when the
buffer is fully set.  This is the `for entry in input.iter_mut()` scan of
`Duplex::absorb`. -/
def set_first_unset (value : F) : List (Option F) → Option (List (Option F))
  | [] => none
  | none :: rest => some (some value :: rest)
  | some x :: rest => (set_first_unset value rest).map (fun r => some x :: r)

/-- Absorbs an element into the sponge (`Duplex::absorb`). -/
def Duplex.absorb (spec : Spec F) (rate : Nat) (d : Duplex F) (value : F) : Duplex F :=
  match d.sponge with
  | Sponge.Absorbing input =>
    match set_first_unset value input with
    | some input' => { d with sponge := Sponge.Absorbing input' }
    | none =>
      -- buffer full: run one duplex round, discard its output
      let st := (poseidon_duplex spec rate d.mds_matrix d.round_constants d.state input).1
      { d with sponge := Sponge.absorb rate value, state := st }
  | Sponge.Squeezing _ =>
    -- drop the remaining output elements
    { d with sponge := Sponge.absorb rate value }

/-- Take (and clear) the first `some` slot, in slot order: the
`for entry in output.iter_mut() { if let Some(e) = entry.take() ... }` scan of
`Duplex::squeeze`. -/
def take_first_set : List (Option F) → Option (F × List (Option F))
  | [] => none
  | some x :: rest => some (x, none :: rest)
  | none :: rest => (take_first_set rest).map (fun p => (p.1, none :: p.2))

/-- The `loop` of `Duplex::squeeze`, with explicit fuel counting its
iterations; `none` means the iteration budget was exhausted. -/
def squeeze_fuel (spec : Spec F) (rate : Nat) : Nat → Duplex F → Option (F × Duplex F)
  | 0, _ => none
  | fuel + 1, d =>
    match d.sponge with
    | Sponge.Absorbing input =>
      let p := poseidon_duplex spec rate d.mds_matrix d.round_constants d.state input
      squeeze_fuel spec rate fuel { d with sponge := Sponge.Squeezing p.2, state := p.1 }
    | Sponge.Squeezing output =>
      match take_first_set output with
      | some (v, output') => some (v, { d with sponge := Sponge.Squeezing output' })
      | none => squeeze_fuel spec rate fuel { d with sponge := Sponge.Absorbing (List.replicate rate none) }

/-- Squeezes an element from the sponge (`Duplex::squeeze`); three loop iterations always
suffice (proved below). -/
def Duplex.squeeze (spec : Spec F) (rate : Nat) (d : Duplex F) : Option (F × Duplex F) :=
  squeeze_fuel spec rate 3 d

/-- The capacity value of `ConstantLength::initial_capacity_element`:
`F::from_u128((L as u128) << 64)` — the length `L` in the high 64 bits, an
output length of one hard-coded in the low 64 bits.  `from_u128` reduces a
128-bit value into the field, embedded here as the natural-number cast of the
shift reduced mod `2^128`. -/
def initial_capacity_element (L : Nat) : F :=
  ((L <<< 64) % 2 ^ 128 : Nat)

/-- The `ConstantLength::padding` buffer: `[None; RATE]` with every slot from index `L`
on (`iter_mut().skip(L)`) set to `Some(F::zero())`. -/
def padding (rate L : Nat) : List (Option F) :=
  (List.range rate).map fun i => if i < L then none else some (0 : F)

/-- Initializes a new hasher (`Hash::init`) with the `ConstantLength L` domain: a duplex seeded with the
domain's initial capacity element. -/
def Hash.init (t rate L : Nat) (mds : List (List F)) (round_constants : List (List F)) :
    Duplex F :=
  Duplex.new t rate (initial_capacity_element L) mds round_constants

/-- Hashes the given input (`Hash::hash`): absorb every message element in order, then squeeze once. -/
def Hash.hash (spec : Spec F) (t rate L : Nat)
    (mds : List (List F)) (round_constants : List (List F)) (message : List F) : Option F :=
  let d := Hash.init t rate L mds round_constants
  let d := message.foldl (fun d v => Duplex.absorb spec rate d v) d
  (Duplex.squeeze spec rate d).map Prod.fst

/-- Squeezing `n` times in a row, collecting the outputs in order. -/
def squeeze_n (spec : Spec F) (rate : Nat) : Nat → Duplex F → Option (List F × Duplex F)
  | 0, d => some ([], d)
  | n + 1, d =>
    (Duplex.squeeze spec rate d).bind fun p =>
      (squeeze_n spec rate n p.2).map fun q => (p.1 :: q.1, q.2)

/-! ## Lemmas about the folding rule `pad_and_add` -/

theorem pad_and_add_nil (b : List (Option F)) : pad_and_add [] b = [] := by
  cases b <;> rfl

theorem pad_and_add_cons_some (w : F) (ws : List F) (x : F) (vs : List (Option F)) :
    pad_and_add (w :: ws) (some x :: vs) = (w + x) :: pad_and_add ws vs := rfl

theorem pad_and_add_cons_none (w : F) (ws : List F) (vs : List (Option F)) :
    pad_and_add (w :: ws) (none :: vs) = w :: pad_and_add ws vs := rfl

theorem pad_and_add_length (s : List F) (b : List (Option F)) :
    (pad_and_add s b).length = s.length := by
  induction s generalizing b with
  | nil => rw [pad_and_add_nil]
  | cons w ws ih =>
    cases b with
    | nil => rfl
    | cons v vs =>
      cases v <;>
        simp [pad_and_add_cons_some, pad_and_add_cons_none, ih]

theorem pad_and_add_getElem?_of_set (s : List F) (b : List (Option F)) (i : Nat) (v : F)
    (h : b[i]? = some (some v)) :
    (pad_and_add s b)[i]? = (s[i]?).map (fun w => w + v) := by
  induction s generalizing b i with
  | nil =>
    rw [pad_and_add_nil]
    simp
  | cons w ws ih =>
    cases b with
    | nil => simp at h
    | cons x xs =>
      cases i with
      | zero =>
        simp only [List.getElem?_cons_zero, Option.some.injEq] at h
        subst h
        rw [pad_and_add_cons_some]
        simp
      | succ j =>
        simp only [List.getElem?_cons_succ] at h
        cases x <;>
          simp only [pad_and_add_cons_some, pad_and_add_cons_none,
            List.getElem?_cons_succ] <;>
          exact ih xs j h

theorem pad_and_add_getElem?_of_unset (s : List F) (b : List (Option F)) (i : Nat)
    (h : b[i]? = some none) :
    (pad_and_add s b)[i]? = s[i]? := by
  induction s generalizing b i with
  | nil => rw [pad_and_add_nil]
  | cons w ws ih =>
    cases b with
    | nil => simp at h
    | cons x xs =>
      cases i with
      | zero =>
        simp only [List.getElem?_cons_zero, Option.some.injEq] at h
        subst h
        rw [pad_and_add_cons_none]
        simp
      | succ j =>
        simp only [List.getElem?_cons_succ] at h
        cases x <;>
          simp only [pad_and_add_cons_some, pad_and_add_cons_none,
            List.getElem?_cons_succ] <;>
          exact ih xs j h

theorem pad_and_add_getElem?_of_ge (s : List F) (b : List (Option F)) (i : Nat)
    (h : b.length ≤ i) :
    (pad_and_add s b)[i]? = s[i]? := by
  induction s generalizing b i with
  | nil => rw [pad_and_add_nil]
  | cons w ws ih =>
    cases b with
    | nil => rfl
    | cons x xs =>
      cases i with
      | zero => simp at h
      | succ j =>
        simp only [List.length_cons, Nat.add_le_add_iff_right] at h
        cases x <;>
          simp only [pad_and_add_cons_some, pad_and_add_cons_none,
            List.getElem?_cons_succ] <;>
          exact ih xs j h

theorem pad_and_add_replicate_none (s : List F) (m : Nat) :
    pad_and_add s (List.replicate m (none : Option F)) = s := by
  induction s generalizing m with
  | nil => rw [pad_and_add_nil]
  | cons w ws ih =>
    cases m with
    | zero => rfl
    | succ m => rw [List.replicate_succ, pad_and_add_cons_none, ih]

/-- Fold a fully-set block into a matching block of the state, leaving the
rest to the recursive call. -/
theorem pad_and_add_append_block (v : List F) (s₁ s₂ : List F) (b : List (Option F))
    (h : s₁.length = v.length) :
    pad_and_add (s₁ ++ s₂) (v.map some ++ b) =
      List.zipWith (fun w x => w + x) s₁ v ++ pad_and_add s₂ b := by
  induction v generalizing s₁ with
  | nil =>
    rw [List.length_nil] at h
    rw [List.eq_nil_of_length_eq_zero h]
    rfl
  | cons x xs ih =>
    cases s₁ with
    | nil => simp at h
    | cons w ws =>
      simp only [List.length_cons, Nat.add_right_cancel_iff] at h
      simp only [List.map_cons, List.cons_append, pad_and_add_cons_some,
        List.zipWith_cons_cons, ih ws h]

theorem zipWith_add_replicate_zero (v : List F) (n : Nat) (h : v.length = n) :
    List.zipWith (fun w x => w + x) (List.replicate n (0 : F)) v = v := by
  induction v generalizing n with
  | nil => simp
  | cons x xs ih =>
    cases n with
    | zero => simp at h
    | succ m =>
      simp only [List.length_cons, Nat.add_right_cancel_iff] at h
      simp [List.replicate_succ, ih xs.length rfl, h.symm]

/-! ## Length lemmas for the permutation -/

theorem apply_mds_length (mds : List (List F)) (s : List F) :
    (apply_mds mds s).length = mds.length := by
  simp [apply_mds]

theorem full_round_length (spec : Spec F) (mds : List (List F)) (s rc : List F) :
    (full_round spec mds s rc).length = mds.length := by
  simp [full_round, apply_mds_length]

theorem part_round_length (spec : Spec F) (mds : List (List F)) (s rc : List F) :
    (part_round spec mds s rc).length = mds.length := by
  simp [part_round, apply_mds_length]

theorem round_foldl_length (spec : Spec F) (mds : List (List F)) (n : Nat)
    (hm : mds.length = n) (l : List (Bool × List F)) :
    ∀ s : List F, s.length = n →
      (l.foldl
        (fun st br => if br.1 then full_round spec mds st br.2 else part_round spec mds st br.2)
        s).length = n := by
  induction l with
  | nil => intro s hs; simpa using hs
  | cons br l ih =>
    intro s hs
    simp only [List.foldl_cons]
    apply ih
    split
    · rw [full_round_length, hm]
    · rw [part_round_length, hm]

theorem permute_length (spec : Spec F) (mds rcs : List (List F)) (s : List F) (n : Nat)
    (hs : s.length = n) (hm : mds.length = n) :
    (permute spec mds rcs s).length = n := by
  unfold permute
  exact round_foldl_length spec mds n hm _ s hs

/-! ## Lemmas about the buffer scans -/

theorem set_first_unset_of_first (value : F) (b : List (Option F)) (k : Nat)
    (hk : b[k]? = some none) (hmin : ∀ j < k, b[j]? ≠ some none) :
    set_first_unset value b = some (b.set k (some value)) := by
  induction b generalizing k with
  | nil => simp at hk
  | cons x xs ih =>
    cases x with
    | none =>
      cases k with
      | zero => rfl
      | succ j =>
        exact absurd (by simp : ((none :: xs) : List (Option F))[0]? = some none)
          (hmin 0 (Nat.succ_pos j))
    | some y =>
      cases k with
      | zero => simp at hk
      | succ j =>
        simp only [List.getElem?_cons_succ] at hk
        have hmin' : ∀ i < j, xs[i]? ≠ some none := fun i hi => by
          have := hmin (i + 1) (Nat.succ_lt_succ hi)
          simpa using this
        simp [set_first_unset, ih j hk hmin', List.set_cons_succ]

theorem set_first_unset_of_full (value : F) (b : List (Option F))
    (h : ∀ x ∈ b, x ≠ none) :
    set_first_unset value b = none := by
  induction b with
  | nil => rfl
  | cons x xs ih =>
    cases x with
    | none => exact absurd rfl (h none (by simp))
    | some y =>
      simp [set_first_unset, ih fun x hx => h x (List.mem_cons_of_mem _ hx)]

theorem take_first_set_cons_some (x : F) (rest : List (Option F)) :
    take_first_set (some x :: rest) = some (x, none :: rest) := rfl

theorem take_first_set_replicate_none (m : Nat) :
    take_first_set (List.replicate m (none : Option F)) = none := by
  induction m with
  | zero => rfl
  | succ m ih => simp [List.replicate_succ, take_first_set, ih]

theorem take_first_set_skip_nones (k : Nat) (b : List (Option F)) :
    take_first_set (List.replicate k (none : Option F) ++ b) =
      (take_first_set b).map fun p => (p.1, List.replicate k (none : Option F) ++ p.2) := by
  induction k with
  | zero => simp
  | succ k ih =>
    rw [List.replicate_succ, List.cons_append]
    show (take_first_set (List.replicate k (none : Option F) ++ b)).map _ = _
    rw [ih]
    cases take_first_set b <;> simp [List.replicate_succ]

/-! ## Iteration lemmas for `squeeze` -/

theorem squeeze_fuel_absorbing (spec : Spec F) (rate n : Nat) (d : Duplex F)
    (input : List (Option F)) (h : d.sponge = Sponge.Absorbing input) :
    squeeze_fuel spec rate (n + 1) d =
      squeeze_fuel spec rate n
        { d with
          sponge := Sponge.Squeezing
            (poseidon_duplex spec rate d.mds_matrix d.round_constants d.state input).2
          state := (poseidon_duplex spec rate d.mds_matrix d.round_constants d.state input).1 } := by
  obtain ⟨sp, st, m, rc⟩ := d
  cases h
  rfl

theorem squeeze_fuel_set_slot (spec : Spec F) (rate n : Nat) (d : Duplex F)
    (output : List (Option F)) (v : F) (output' : List (Option F))
    (h : d.sponge = Sponge.Squeezing output) (ht : take_first_set output = some (v, output')) :
    squeeze_fuel spec rate (n + 1) d = some (v, { d with sponge := Sponge.Squeezing output' }) := by
  obtain ⟨sp, st, m, rc⟩ := d
  cases h
  simp [squeeze_fuel, ht]

theorem squeeze_fuel_empty_slots (spec : Spec F) (rate n : Nat) (d : Duplex F)
    (output : List (Option F))
    (h : d.sponge = Sponge.Squeezing output) (ht : take_first_set output = none) :
    squeeze_fuel spec rate (n + 1) d =
      squeeze_fuel spec rate n { d with sponge := Sponge.Absorbing (List.replicate rate none) } := by
  obtain ⟨sp, st, m, rc⟩ := d
  cases h
  simp [squeeze_fuel, ht]

theorem range_map_getElem? (l : List F) (n : Nat) (h : n ≤ l.length) :
    (List.range n).map (fun i => l[i]?) = (l.take n).map some := by
  apply List.ext_getElem?
  intro i
  rw [List.getElem?_map, List.getElem?_map, List.getElem?_take]
  by_cases hi : i < n
  · rw [List.getElem?_range hi, if_pos hi]
    have : i < l.length := Nat.lt_of_lt_of_le hi h
    simp [List.getElem?_eq_getElem this]
  · rw [if_neg hi, List.getElem?_eq_none (by simpa [List.length_range] using Nat.le_of_not_lt hi)]
    simp

theorem poseidon_duplex_output (spec : Spec F) (rate : Nat) (mds rcs : List (List F))
    (state : List F) (input : List (Option F))
    (h : rate ≤ (permute spec mds rcs (pad_and_add state input)).length) :
    (poseidon_duplex spec rate mds rcs state input).2 =
      ((permute spec mds rcs (pad_and_add state input)).take rate).map some := by
  unfold poseidon_duplex
  exact range_map_getElem? _ _ h

/-- Running `squeeze` on an absorbing duplex with well-formed dimensions: one
duplex round happens, the value returned is lane 0 of the permuted state, and
two loop iterations suffice. -/
theorem squeeze_fuel_from_absorbing (spec : Spec F) (rate n : Nat) (d : Duplex F)
    (input : List (Option F))
    (hspg : d.sponge = Sponge.Absorbing input) (hr : 1 ≤ rate)
    (hs : d.state.length = rate + 1) (hm : d.mds_matrix.length = rate + 1) :
    squeeze_fuel spec rate (n + 2) d =
      some ((permute spec d.mds_matrix d.round_constants (pad_and_add d.state input)).headD 0,
        { d with
          state := permute spec d.mds_matrix d.round_constants (pad_and_add d.state input)
          sponge := Sponge.Squeezing
            ((((permute spec d.mds_matrix d.round_constants
                (pad_and_add d.state input)).take rate).map some).set 0 none) }) := by
  set st := permute spec d.mds_matrix d.round_constants (pad_and_add d.state input) with hst_def
  have hst : st.length = rate + 1 :=
    permute_length _ _ _ _ _ (by rw [pad_and_add_length]; exact hs) hm
  rw [squeeze_fuel_absorbing spec rate (n + 1) d input hspg]
  have hout : (poseidon_duplex spec rate d.mds_matrix d.round_constants d.state input).2 =
      (st.take rate).map some :=
    poseidon_duplex_output spec rate _ _ _ _ (by rw [← hst_def, hst]; exact Nat.le_succ rate)
  have hst1 : (poseidon_duplex spec rate d.mds_matrix d.round_constants d.state input).1 = st :=
    rfl
  obtain ⟨v, rest, hv⟩ := List.exists_cons_of_ne_nil
    (List.ne_nil_of_length_pos (show 0 < st.length by omega))
  obtain ⟨r, hr'⟩ : ∃ r, rate = r + 1 := ⟨rate - 1, by omega⟩
  have htake : st.take rate = v :: rest.take r := by
    rw [hv, hr', List.take_succ_cons]
  rw [squeeze_fuel_set_slot spec rate n _ ((st.take rate).map some) v
      (none :: (rest.take r).map some)
      (by rw [hout]) (by rw [htake, List.map_cons, take_first_set_cons_some])]
  rw [hst1, hout]
  have hhead : st.headD 0 = v := by rw [hv]; rfl
  rw [hhead, htake]
  rfl

/-! ## Buffer shape predicates (the FIFO invariant of claim C9) -/

/-- Shape of an absorbing buffer: every set slot comes before every unset one
(so the first-unset-slot scan appends in FIFO order). -/
def somes_then_nones : List (Option F) → Bool
  | [] => true
  | some _ :: rest => somes_then_nones rest
  | none :: rest => rest.all fun x => x.isNone

/-- Shape of a squeezing buffer: every unset slot comes before every set one
(so the first-set-slot scan consumes in FIFO order). -/
def nones_then_somes : List (Option F) → Bool
  | [] => true
  | none :: rest => nones_then_somes rest
  | some _ :: rest => rest.all fun x => x.isSome

/-- The shape invariant: contiguous set block at the front while absorbing,
contiguous set block at the back while squeezing. -/
def sponge_shape : Sponge F → Bool
  | Sponge.Absorbing b => somes_then_nones b
  | Sponge.Squeezing b => nones_then_somes b

theorem somes_then_nones_of_all_none (b : List (Option F)) (h : ∀ x ∈ b, x = none) :
    somes_then_nones b = true := by
  cases b with
  | nil => rfl
  | cons x xs =>
    rw [h x (by simp)]
    simp only [somes_then_nones, List.all_eq_true]
    intro y hy
    rw [h y (List.mem_cons_of_mem _ hy)]
    rfl

theorem somes_then_nones_replicate_none (m : Nat) :
    somes_then_nones (List.replicate m (none : Option F)) = true :=
  somes_then_nones_of_all_none _ fun _ hx => (List.mem_replicate.1 hx).2

theorem nones_then_somes_of_all_some (b : List (Option F)) (h : ∀ x ∈ b, x.isSome = true) :
    nones_then_somes b = true := by
  cases b with
  | nil => rfl
  | cons x xs =>
    cases x with
    | none => exact absurd (h none (by simp)) (by simp)
    | some y =>
      simp only [nones_then_somes, List.all_eq_true]
      intro z hz
      exact h z (List.mem_cons_of_mem _ hz)

theorem somes_then_nones_fresh (rate : Nat) (v : F) :
    somes_then_nones ((List.replicate rate (none : Option F)).set 0 (some v)) = true := by
  cases rate with
  | zero => rfl
  | succ r =>
    rw [List.replicate_succ, List.set_cons_zero]
    simp only [somes_then_nones]
    exact somes_then_nones_replicate_none r

theorem somes_then_nones_set_first (value : F) (b b' : List (Option F))
    (hb : somes_then_nones b = true) (h : set_first_unset value b = some b') :
    somes_then_nones b' = true := by
  induction b generalizing b' with
  | nil => exact Option.noConfusion h
  | cons x xs ih =>
    cases x with
    | none =>
      simp only [set_first_unset, Option.some.injEq] at h
      subst h
      simp only [somes_then_nones] at hb ⊢
      exact somes_then_nones_of_all_none xs fun y hy =>
        Option.isNone_iff_eq_none.1 (List.all_eq_true.1 hb y hy)
    | some y =>
      simp only [set_first_unset] at h
      cases hxs : set_first_unset value xs with
      | none => rw [hxs] at h; simp at h
      | some r =>
        rw [hxs] at h
        simp only [Option.map_some', Option.some.injEq] at h
        subst h
        simp only [somes_then_nones] at hb ⊢
        exact ih r hb hxs

theorem nones_then_somes_take_first (b : List (Option F)) (v : F) (b' : List (Option F))
    (hb : nones_then_somes b = true) (h : take_first_set b = some (v, b')) :
    nones_then_somes b' = true := by
  induction b generalizing b' with
  | nil => exact Option.noConfusion h
  | cons x xs ih =>
    cases x with
    | some y =>
      rw [take_first_set_cons_some] at h
      simp only [Option.some.injEq, Prod.mk.injEq] at h
      obtain ⟨-, h2⟩ := h
      subst h2
      simp only [nones_then_somes] at hb ⊢
      exact nones_then_somes_of_all_some xs (List.all_eq_true.1 hb)
    | none =>
      simp only [take_first_set] at h
      cases hxs : take_first_set xs with
      | none => rw [hxs] at h; simp at h
      | some p =>
        rw [hxs] at h
        simp only [Option.map_some', Option.some.injEq, Prod.mk.injEq] at h
        obtain ⟨h1, h2⟩ := h
        subst h2
        simp only [nones_then_somes] at hb ⊢
        exact ih p.2 hb (by rw [hxs, ← h1])

theorem nones_then_somes_output (l : List F) :
    nones_then_somes ((l.map some).set 0 none) = true := by
  cases l with
  | nil => rfl
  | cons x xs =>
    rw [List.map_cons, List.set_cons_zero]
    simp only [nones_then_somes]
    exact nones_then_somes_of_all_some _ (by
      intro y hy
      rw [List.mem_map] at hy
      obtain ⟨z, -, rfl⟩ := hy
      rfl)

/-! ## Lemmas about repeated squeezing -/

theorem squeeze_n_zero (spec : Spec F) (rate : Nat) (d : Duplex F) :
    squeeze_n spec rate 0 d = some ([], d) := rfl

theorem squeeze_n_succ (spec : Spec F) (rate n : Nat) (d : Duplex F) :
    squeeze_n spec rate (n + 1) d =
      (Duplex.squeeze spec rate d).bind fun p =>
        (squeeze_n spec rate n p.2).map fun q => (p.1 :: q.1, q.2) := rfl

theorem squeeze_n_add (spec : Spec F) (rate m n : Nat) (d : Duplex F) :
    squeeze_n spec rate (m + n) d =
      (squeeze_n spec rate m d).bind fun p =>
        (squeeze_n spec rate n p.2).map fun q => (p.1 ++ q.1, q.2) := by
  induction m generalizing d with
  | zero =>
    rw [Nat.zero_add, squeeze_n_zero, Option.some_bind]
    cases squeeze_n spec rate n d with
    | none => rfl
    | some q => simp
  | succ m ih =>
    rw [Nat.succ_add, squeeze_n_succ, squeeze_n_succ]
    cases Duplex.squeeze spec rate d with
    | none => rfl
    | some p =>
      rw [Option.some_bind, Option.some_bind, ih p.2]
      cases squeeze_n spec rate m p.2 with
      | none => rfl
      | some q =>
        rw [Option.map_some', Option.some_bind, Option.map_map]
        congr 1

/-- Consuming a fully-set tail: from a squeezing buffer holding `k` cleared
slots followed by the values `l`, the next `l.length` squeezes return exactly
`l` in order, never permuting, and leave an all-cleared squeezing buffer. -/
theorem squeeze_n_consume (spec : Spec F) (rate : Nat) (d : Duplex F) (k : Nat) (l : List F)
    (h : d.sponge = Sponge.Squeezing (List.replicate k (none : Option F) ++ l.map some)) :
    squeeze_n spec rate l.length d =
      some (l, { d with
        sponge := Sponge.Squeezing (List.replicate (k + l.length) (none : Option F)) }) := by
  induction l generalizing k d with
  | nil =>
    obtain ⟨sp, st, m, rc⟩ := d
    simp only [List.map_nil, List.append_nil] at h
    subst h
    rw [List.length_nil, Nat.add_zero, squeeze_n_zero]
  | cons x xs ih =>
    have ht : take_first_set (List.replicate k (none : Option F) ++ (x :: xs).map some) =
        some (x, List.replicate (k + 1) (none : Option F) ++ xs.map some) := by
      rw [List.map_cons, take_first_set_skip_nones, take_first_set_cons_some]
      have : List.replicate (k + 1) (none : Option F) ++ xs.map some =
          List.replicate k (none : Option F) ++ (none :: xs.map some) := by
        rw [List.replicate_succ']
        simp [List.append_assoc]
      rw [this]
      rfl
    have hsq : Duplex.squeeze spec rate d =
        some (x, { d with
          sponge := Sponge.Squeezing (List.replicate (k + 1) (none : Option F) ++ xs.map some) }) :=
      squeeze_fuel_set_slot spec rate 2 d _ x _ h ht
    rw [List.length_cons, squeeze_n_succ, hsq, Option.some_bind]
    rw [ih _ _ rfl]
    have harith : k + 1 + xs.length = k + (xs.length + 1) := by omega
    simp [harith]


/-! ## The round schedule as three phases (machinery for claim C1) -/

theorem replicate_zip {α β : Type} (b : α) (k : Nat) (cs : List β) :
    (List.replicate k b).zip cs = (cs.take k).map fun c => (b, c) := by
  induction k generalizing cs with
  | zero => simp
  | succ k ih =>
    cases cs with
    | nil => simp
    | cons c cs' =>
      rw [List.replicate_succ, List.take_succ_cons, List.map_cons, List.zip_cons_cons, ih]

theorem zip_replicate_append_split {α β : Type} (b : α) (k : Nat) (rest : List α)
    (cs : List β) (hk : k ≤ cs.length) :
    (List.replicate k b ++ rest).zip cs =
      (List.replicate k b).zip (cs.take k) ++ rest.zip (cs.drop k) := by
  conv_lhs => rw [← List.take_append_drop k cs]
  rw [List.zip_append]
  rw [List.length_replicate, List.length_take]
  omega

/-- The fold of `permute` splits into the two blocks of full rounds around the
block of partial rounds, each block consuming its own segment of the
round-constant table, in order. -/
theorem permute_phases (spec : Spec F) (mds rcs : List (List F)) (s : List F)
    (h : 2 * (spec.fullRounds / 2) + spec.partialRounds ≤ rcs.length) :
    permute spec mds rcs s =
      ((rcs.drop (spec.fullRounds / 2 + spec.partialRounds)).take (spec.fullRounds / 2)).foldl
        (full_round spec mds)
        (((rcs.drop (spec.fullRounds / 2)).take spec.partialRounds).foldl (part_round spec mds)
          ((rcs.take (spec.fullRounds / 2)).foldl (full_round spec mds) s)) := by
  have hrf : spec.fullRounds / 2 ≤ rcs.length := by omega
  have hrp : spec.partialRounds ≤ (rcs.drop (spec.fullRounds / 2)).length := by
    rw [List.length_drop]
    omega
  simp only [permute]
  rw [List.append_assoc]
  rw [zip_replicate_append_split true (spec.fullRounds / 2) _ rcs hrf]
  rw [zip_replicate_append_split false spec.partialRounds _ _ hrp]
  rw [replicate_zip, replicate_zip, replicate_zip]
  rw [List.take_take, List.drop_drop]
  rw [List.foldl_append, List.foldl_append]
  rw [List.foldl_map, List.foldl_map, List.foldl_map]
  simp [List.take_take, Nat.min_self, Nat.add_comm]

/-! ## The rounds as explicit sums (machinery for claim C1) -/

theorem foldl_add_eq_sum (l : List F) (c : F) : l.foldl (· + ·) c = c + l.sum := by
  induction l generalizing c with
  | nil => simp
  | cons x xs ih =>
    rw [List.foldl_cons, ih, List.sum_cons, add_assoc]

theorem zipWith_getD (f : F → F → F) (l₁ l₂ : List F) (j n : Nat)
    (h₁ : l₁.length = n) (h₂ : l₂.length = n) (hj : j < n) :
    (List.zipWith f l₁ l₂).getD j 0 = f (l₁.getD j 0) (l₂.getD j 0) := by
  induction l₁ generalizing l₂ j n with
  | nil => simp at h₁; omega
  | cons a as ih =>
    cases l₂ with
    | nil => simp at h₂; omega
    | cons b bs =>
      cases n with
      | zero => simp at h₁
      | succ m =>
        cases j with
        | zero => rw [List.zipWith_cons_cons]; simp [List.getD_cons_zero]
        | succ i =>
          rw [List.zipWith_cons_cons]
          simp only [List.getD_cons_succ]
          exact ih bs i m (by simpa using h₁) (by simpa using h₂) (by omega)

theorem dot_eq_sum (row u : List F) (n : Nat) (hr : row.length = n) (hu : u.length = n) :
    (List.zipWith (fun a b => a * b) row u).foldl (· + ·) 0 =
      ∑ j ∈ Finset.range n, row.getD j 0 * u.getD j 0 := by
  rw [foldl_add_eq_sum, zero_add]
  induction row generalizing u n with
  | nil =>
    have : n = 0 := by simpa using hr.symm
    subst this
    simp
  | cons a as ih =>
    cases u with
    | nil => simp at hr hu; omega
    | cons b bs =>
      cases n with
      | zero => simp at hr
      | succ m =>
        rw [List.zipWith_cons_cons, List.sum_cons, Finset.sum_range_succ']
        simp only [List.getD_cons_succ, List.getD_cons_zero]
        rw [ih bs m (by simpa using hr) (by simpa using hu), add_comm]

theorem apply_mds_eq_sum (mds : List (List F)) (u : List F) (n : Nat)
    (hu : u.length = n) (hrow : ∀ row ∈ mds, row.length = n) :
    apply_mds mds u = mds.map fun row => ∑ j ∈ Finset.range n, row.getD j 0 * u.getD j 0 := by
  unfold apply_mds
  exact List.map_congr_left fun row hr => dot_eq_sum row u n (hrow row hr) hu

/-- A full round is exactly the specified map: constant addition and S-box on
every lane, then the matrix-vector product. -/
theorem full_round_eq_sum (spec : Spec F) (mds : List (List F)) (st rc : List F) (n : Nat)
    (hst : st.length = n) (hrc : rc.length = n) (hrow : ∀ row ∈ mds, row.length = n) :
    full_round spec mds st rc =
      mds.map fun row =>
        ∑ j ∈ Finset.range n, row.getD j 0 * spec.sbox (st.getD j 0 + rc.getD j 0) := by
  unfold full_round
  rw [apply_mds_eq_sum mds _ n (by rw [List.length_zipWith, hst, hrc]; simp) hrow]
  apply List.map_congr_left
  intro row hr
  apply Finset.sum_congr rfl
  intro j hj
  rw [Finset.mem_range] at hj
  rw [zipWith_getD _ st rc j n hst hrc hj]

theorem sbox_first_getD_zero (spec : Spec F) (l : List F) (h : l ≠ []) :
    (sbox_first spec l).getD 0 0 = spec.sbox (l.getD 0 0) := by
  cases l with
  | nil => exact absurd rfl h
  | cons x xs => rfl

theorem sbox_first_getD_succ (spec : Spec F) (l : List F) (k : Nat) :
    (sbox_first spec l).getD (k + 1) 0 = l.getD (k + 1) 0 := by
  cases l <;> rfl

theorem sbox_first_length (spec : Spec F) (l : List F) :
    (sbox_first spec l).length = l.length := by
  cases l <;> rfl

/-- A partial round is exactly the specified map: constant addition on every
lane, the S-box on lane 0 only, then the matrix-vector product. -/
theorem part_round_eq_sum (spec : Spec F) (mds : List (List F)) (st rc : List F) (n : Nat)
    (hst : st.length = n) (hrc : rc.length = n) (hrow : ∀ row ∈ mds, row.length = n) :
    part_round spec mds st rc =
      mds.map fun row =>
        ∑ j ∈ Finset.range n, row.getD j 0 *
          (if j = 0 then spec.sbox (st.getD 0 0 + rc.getD 0 0) else st.getD j 0 + rc.getD j 0) := by
  unfold part_round
  rw [apply_mds_eq_sum mds _ n
    (by rw [sbox_first_length, List.length_zipWith, hst, hrc]; simp) hrow]
  apply List.map_congr_left
  intro row hr
  apply Finset.sum_congr rfl
  intro j hj
  rw [Finset.mem_range] at hj
  congr 1
  have hlen : (List.zipWith (fun w c => w + c) st rc).length = n := by
    rw [List.length_zipWith, hst, hrc]; simp
  cases j with
  | zero =>
    rw [sbox_first_getD_zero spec _ (by
      intro hnil
      rw [hnil] at hlen
      simp at hlen
      omega)]
    rw [zipWith_getD _ st rc 0 n hst hrc (by omega)]
    simp
  | succ k =>
    rw [sbox_first_getD_succ, zipWith_getD _ st rc (k + 1) n hst hrc hj]
    simp


/-! ## Fold congruences for the two round kinds -/

theorem foldl_full_round_length (spec : Spec F) (mds : List (List F)) (n : Nat)
    (hm : mds.length = n) (seg : List (List F)) :
    ∀ s : List F, s.length = n → (seg.foldl (full_round spec mds) s).length = n := by
  induction seg with
  | nil => intro s hs; simpa using hs
  | cons rc seg ih =>
    intro s hs
    rw [List.foldl_cons]
    exact ih _ (by rw [full_round_length, hm])

theorem foldl_part_round_length (spec : Spec F) (mds : List (List F)) (n : Nat)
    (hm : mds.length = n) (seg : List (List F)) :
    ∀ s : List F, s.length = n → (seg.foldl (part_round spec mds) s).length = n := by
  induction seg with
  | nil => intro s hs; simpa using hs
  | cons rc seg ih =>
    intro s hs
    rw [List.foldl_cons]
    exact ih _ (by rw [part_round_length, hm])

theorem foldl_full_round_eq (spec : Spec F) (mds : List (List F)) (n : Nat)
    (hm : mds.length = n) (hrow : ∀ row ∈ mds, row.length = n) (seg : List (List F)) :
    ∀ s : List F, s.length = n → (∀ rc ∈ seg, rc.length = n) →
      seg.foldl (full_round spec mds) s =
        seg.foldl
          (fun st rc => mds.map fun row =>
            ∑ j ∈ Finset.range n, row.getD j 0 * spec.sbox (st.getD j 0 + rc.getD j 0))
          s := by
  induction seg with
  | nil => intro s _ _; rfl
  | cons rc seg ih =>
    intro s hs hseg
    simp only [List.foldl_cons]
    rw [← full_round_eq_sum spec mds s rc n hs (hseg rc (by simp)) hrow]
    exact ih _ (by rw [full_round_length, hm])
      fun rc' h' => hseg rc' (List.mem_cons_of_mem _ h')

theorem foldl_part_round_eq (spec : Spec F) (mds : List (List F)) (n : Nat)
    (hm : mds.length = n) (hrow : ∀ row ∈ mds, row.length = n) (seg : List (List F)) :
    ∀ s : List F, s.length = n → (∀ rc ∈ seg, rc.length = n) →
      seg.foldl (part_round spec mds) s =
        seg.foldl
          (fun st rc => mds.map fun row =>
            ∑ j ∈ Finset.range n, row.getD j 0 *
              (if j = 0 then spec.sbox (st.getD 0 0 + rc.getD 0 0)
               else st.getD j 0 + rc.getD j 0))
          s := by
  induction seg with
  | nil => intro s _ _; rfl
  | cons rc seg ih =>
    intro s hs hseg
    simp only [List.foldl_cons]
    rw [← part_round_eq_sum spec mds s rc n hs (hseg rc (by simp)) hrow]
    exact ih _ (by rw [part_round_length, hm])
      fun rc' h' => hseg rc' (List.mem_cons_of_mem _ h')

/-! ## Concrete instances used by the witnesses -/

/-- A small test specification over the integers: two full rounds, one
partial round, cubing S-box. -/
def exSpec : Spec Int := ⟨2, 1, fun x => x * x * x⟩

/-- A test specification with an odd number of full rounds. -/
def exSpecOdd : Spec Int := ⟨3, 1, fun x => x * x * x⟩

/-- A 3×3 test matrix. -/
def exMds : List (List Int) := [[1, 1, 0], [0, 1, 1], [1, 0, 1]]

/-- Three test round constants (`2 + 1` rounds for `exSpec`). -/
def exRcs : List (List Int) := [[1, 0, 0], [0, 1, 0], [0, 0, 1]]

/-- Four test round constants (`3 + 1` rounds for `exSpecOdd`). -/
def exRcs4 : List (List Int) := [[1, 0, 0], [0, 1, 0], [0, 0, 1], [5, 6, 7]]

/-- A test duplex in mid-absorption. -/
def exDuplex : Duplex Int :=
  { sponge := Sponge.Absorbing [some 1, none]
    state := [3, 4, 5]
    mds_matrix := exMds
    round_constants := exRcs }

/-- A test duplex in squeezing mode. -/
def exDuplexSq : Duplex Int :=
  { sponge := Sponge.Squeezing [none, some 8]
    state := [3, 4, 5]
    mds_matrix := exMds
    round_constants := exRcs }

/-! ## Claim theorems -/

/-- C1: with a round-constant table of length `full_rounds + partial_rounds`,
`permute` performs `full_rounds / 2` full rounds, then `partial_rounds`
partial rounds, then `full_rounds / 2` full rounds, consuming the constants
in order (one `T`-vector per round); a full round adds the round constant to
every lane, applies the S-box to every lane, then multiplies by the matrix
(`new_state[i] = Σ_j matrix[i][j] * state[j]`); a partial round adds the
constant to every lane, applies the S-box to lane 0 only, then multiplies by
the matrix. -/
theorem permute_round_structure (spec : Spec F) (mds rcs : List (List F)) (s : List F)
    (n : Nat) (hlen : rcs.length = spec.fullRounds + spec.partialRounds)
    (hst : s.length = n) (hm : mds.length = n)
    (hrow : ∀ row ∈ mds, row.length = n) (hrcs : ∀ rc ∈ rcs, rc.length = n) :
    permute spec mds rcs s =
      ((rcs.drop (spec.fullRounds / 2 + spec.partialRounds)).take (spec.fullRounds / 2)).foldl
        (fun st rc => mds.map fun row =>
          ∑ j ∈ Finset.range n, row.getD j 0 * spec.sbox (st.getD j 0 + rc.getD j 0))
        (((rcs.drop (spec.fullRounds / 2)).take spec.partialRounds).foldl
          (fun st rc => mds.map fun row =>
            ∑ j ∈ Finset.range n, row.getD j 0 *
              (if j = 0 then spec.sbox (st.getD 0 0 + rc.getD 0 0)
               else st.getD j 0 + rc.getD j 0))
          ((rcs.take (spec.fullRounds / 2)).foldl
            (fun st rc => mds.map fun row =>
              ∑ j ∈ Finset.range n, row.getD j 0 * spec.sbox (st.getD j 0 + rc.getD j 0))
            s)) := by
  rw [permute_phases spec mds rcs s (by omega)]
  rw [foldl_full_round_eq spec mds n hm hrow _ s hst
    fun rc h' => hrcs rc (List.mem_of_mem_take h')]
  rw [foldl_part_round_eq spec mds n hm hrow _ _
    (by
      rw [← foldl_full_round_eq spec mds n hm hrow _ s hst
        fun rc h' => hrcs rc (List.mem_of_mem_take h')]
      exact foldl_full_round_length spec mds n hm _ s hst)
    fun rc h' => hrcs rc (List.mem_of_mem_drop (List.mem_of_mem_take h'))]
  rw [foldl_full_round_eq spec mds n hm hrow _ _
    (by
      rw [← foldl_part_round_eq spec mds n hm hrow _ _
        (by
          rw [← foldl_full_round_eq spec mds n hm hrow _ s hst
            fun rc h' => hrcs rc (List.mem_of_mem_take h')]
          exact foldl_full_round_length spec mds n hm _ s hst)
        fun rc h' => hrcs rc (List.mem_of_mem_drop (List.mem_of_mem_take h'))]
      apply foldl_part_round_length spec mds n hm
      rw [← foldl_full_round_eq spec mds n hm hrow _ s hst
        fun rc h' => hrcs rc (List.mem_of_mem_take h')]
      exact foldl_full_round_length spec mds n hm _ s hst)
    fun rc h' => hrcs rc (List.mem_of_mem_drop (List.mem_of_mem_take h'))]

/-- Witness for C1 at a concrete instance. -/
theorem permute_round_structure_witness :
    permute exSpec exMds exRcs [6, 42, 7] =
      ((exRcs.drop (exSpec.fullRounds / 2 + exSpec.partialRounds)).take
          (exSpec.fullRounds / 2)).foldl
        (fun st rc => exMds.map fun row =>
          ∑ j ∈ Finset.range 3, row.getD j 0 * exSpec.sbox (st.getD j 0 + rc.getD j 0))
        (((exRcs.drop (exSpec.fullRounds / 2)).take exSpec.partialRounds).foldl
          (fun st rc => exMds.map fun row =>
            ∑ j ∈ Finset.range 3, row.getD j 0 *
              (if j = 0 then exSpec.sbox (st.getD 0 0 + rc.getD 0 0)
               else st.getD j 0 + rc.getD j 0))
          ((exRcs.take (exSpec.fullRounds / 2)).foldl
            (fun st rc => exMds.map fun row =>
              ∑ j ∈ Finset.range 3, row.getD j 0 * exSpec.sbox (st.getD j 0 + rc.getD j 0))
            [6, 42, 7])) :=
  permute_round_structure exSpec exMds exRcs [6, 42, 7] 3 (by decide) (by decide) (by decide)
    (by decide) (by decide)

/-- C4: the `ConstantLength` folding rule adds every set buffer value into
the state lane at the same index, leaves lanes with unset buffer slots
unmodified, and never touches a lane at an index at or beyond the buffer
length — in particular the capacity lane `state[RATE]` when the buffer is
`RATE`-sized. -/
theorem pad_and_add_frame (state : List F) (buffer : List (Option F)) :
    (pad_and_add state buffer).length = state.length ∧
    (∀ (i : Nat) (v : F), buffer[i]? = some (some v) →
      (pad_and_add state buffer)[i]? = (state[i]?).map fun w => w + v) ∧
    (∀ i : Nat, buffer[i]? = some none → (pad_and_add state buffer)[i]? = state[i]?) ∧
    (∀ i : Nat, buffer.length ≤ i → (pad_and_add state buffer)[i]? = state[i]?) :=
  ⟨pad_and_add_length state buffer,
   fun i v h => pad_and_add_getElem?_of_set state buffer i v h,
   fun i h => pad_and_add_getElem?_of_unset state buffer i h,
   fun i h => pad_and_add_getElem?_of_ge state buffer i h⟩

/-- Witness for C4 at a concrete instance (set slot, unset slot, capacity
lane). -/
theorem pad_and_add_frame_witness :
    (pad_and_add [3, 4, 5] [some 10, none] : List Int)[0]? = some 13 ∧
    (pad_and_add [3, 4, 5] [some 10, none] : List Int)[1]? = some 4 ∧
    (pad_and_add [3, 4, 5] [some 10, none] : List Int)[2]? = some 5 := by
  have h := pad_and_add_frame ([3, 4, 5] : List Int) [some 10, none]
  refine ⟨?_, ?_, ?_⟩
  · rw [h.2.1 0 10 (by decide)]; decide
  · rw [h.2.2.1 1 (by decide)]; decide
  · rw [h.2.2.2 2 (by decide)]; decide

/-- C10: an unset buffer slot behaves exactly like a slot set to zero:
`pad_and_add` gives the same state on two buffers that agree except that
some unset slots of the first are `some 0` in the second.  In particular a
buffer of absorbed values followed by unset slots folds like the explicitly
zero-padded buffer produced by `ConstantLength::padding`. -/
theorem pad_and_add_zero_padding_equiv (state : List F) (b₁ b₂ : List (Option F))
    (h : List.Forall₂ (fun x y => x = y ∨ (x = none ∧ y = some (0 : F))) b₁ b₂) :
    pad_and_add state b₁ = pad_and_add state b₂ := by
  induction h generalizing state with
  | nil => rfl
  | cons hxy _ ih =>
    cases state with
    | nil => rw [pad_and_add_nil, pad_and_add_nil]
    | cons w ws =>
      rcases hxy with rfl | ⟨hx, hy⟩
      · rename_i x l₁ l₂ h₂
        cases x with
        | none => rw [pad_and_add_cons_none, pad_and_add_cons_none, ih ws]
        | some v => rw [pad_and_add_cons_some, pad_and_add_cons_some, ih ws]
      · rw [hx, hy, pad_and_add_cons_none, pad_and_add_cons_some, add_zero, ih ws]

/-- Witness for C10 at a concrete instance. -/
theorem pad_and_add_zero_padding_equiv_witness :
    pad_and_add ([3, 4, 5] : List Int) [some 7, none] =
      pad_and_add ([3, 4, 5] : List Int) [some 7, some 0] :=
  pad_and_add_zero_padding_equiv [3, 4, 5] [some 7, none] [some 7, some 0]
    (List.Forall₂.cons (Or.inl rfl)
      (List.Forall₂.cons (Or.inr ⟨rfl, rfl⟩) List.Forall₂.nil))

/-- C7: the `ConstantLength L` domain has initial capacity element `L·2^64`
(for any `L` fitting in 64 bits — `L` in the high half of the 128-bit
encoding, the hard-coded output length of one in the low half), and its
padding buffer has `some 0` exactly at the slots with index at least `L` and
unset slots below `L`. -/
theorem constant_length_domain_char (L rate : Nat) (hL : L < 2 ^ 64) :
    (initial_capacity_element L : F) = ((L * 2 ^ 64 : Nat) : F) ∧
    ∀ i, (padding rate L : List (Option F))[i]? =
      if i < rate then some (if i < L then none else some (0 : F)) else none := by
  constructor
  · unfold initial_capacity_element
    exact congrArg (fun m : Nat => (m : F)) (by omega : (L <<< 64) % 2 ^ 128 = L * 2 ^ 64)
  · intro i
    unfold padding
    rw [List.getElem?_map]
    by_cases hi : i < rate
    · rw [List.getElem?_range hi, if_pos hi]
      rfl
    · rw [List.getElem?_eq_none (by simpa [List.length_range] using Nat.le_of_not_lt hi),
        if_neg hi]
      rfl

/-- Witness for C7 at a concrete instance (`L = 2`, `RATE = 2` is the Orchard
configuration; also exercises a padded slot with `L = 1`). -/
theorem constant_length_domain_char_witness :
    (initial_capacity_element 2 : Int) = ((2 * 2 ^ 64 : Nat) : Int) ∧
    (padding 2 1 : List (Option Int))[1]? = some (some 0) := by
  have h2 := constant_length_domain_char (F := Int) 2 2 (by norm_num)
  have h1 := constant_length_domain_char (F := Int) 1 2 (by norm_num)
  refine ⟨h2.1, ?_⟩
  rw [h1.2 1]
  decide


/-! ## Reduction helpers for `Duplex.absorb` -/

theorem absorb_absorbing_set (spec : Spec F) (rate : Nat) (d : Duplex F)
    (input input' : List (Option F)) (value : F)
    (hsp : d.sponge = Sponge.Absorbing input)
    (hset : set_first_unset value input = some input') :
    Duplex.absorb spec rate d value = { d with sponge := Sponge.Absorbing input' } := by
  obtain ⟨sp, st, m, rc⟩ := d
  cases hsp
  simp [Duplex.absorb, hset]

theorem absorb_absorbing_full (spec : Spec F) (rate : Nat) (d : Duplex F)
    (input : List (Option F)) (value : F)
    (hsp : d.sponge = Sponge.Absorbing input)
    (hset : set_first_unset value input = none) :
    Duplex.absorb spec rate d value =
      { d with
        sponge := Sponge.Absorbing ((List.replicate rate none).set 0 (some value))
        state := permute spec d.mds_matrix d.round_constants (pad_and_add d.state input) } := by
  obtain ⟨sp, st, m, rc⟩ := d
  cases hsp
  simp [Duplex.absorb, hset, Sponge.absorb, poseidon_duplex]

theorem absorb_squeezing (spec : Spec F) (rate : Nat) (d : Duplex F)
    (output : List (Option F)) (value : F)
    (hsp : d.sponge = Sponge.Squeezing output) :
    Duplex.absorb spec rate d value =
      { d with sponge := Sponge.Absorbing ((List.replicate rate none).set 0 (some value)) } := by
  obtain ⟨sp, st, m, rc⟩ := d
  cases hsp
  simp [Duplex.absorb, Sponge.absorb]

/-- Scanning skips over a block of set slots. -/
theorem set_first_unset_skip_somes (value : F) (acc : List F) (b : List (Option F)) :
    set_first_unset value (acc.map some ++ b) =
      (set_first_unset value b).map fun r => acc.map some ++ r := by
  induction acc with
  | nil => simp
  | cons a as ih =>
    rw [List.map_cons, List.cons_append]
    show (set_first_unset value (as.map some ++ b)).map _ = _
    rw [ih]
    cases set_first_unset value b <;> simp

/-- C3 amended: there is no eager validation; `permute` zips the round
schedule with the table, so every constant beyond the
`2·(full_rounds/2) + partial_rounds` the schedule consumes is silently
ignored, and hashing runs to completion instead of failing. -/
theorem permute_ignores_excess_constants (spec : Spec F) (mds rcs : List (List F))
    (s : List F) (h : 2 * (spec.fullRounds / 2) + spec.partialRounds ≤ rcs.length) :
    permute spec mds rcs s =
      permute spec mds (rcs.take (2 * (spec.fullRounds / 2) + spec.partialRounds)) s := by
  rw [permute_phases spec mds rcs s h,
    permute_phases spec mds _ s (by rw [List.length_take]; omega)]
  have h1 : (rcs.take (2 * (spec.fullRounds / 2) + spec.partialRounds)).take
      (spec.fullRounds / 2) = rcs.take (spec.fullRounds / 2) := by
    rw [List.take_take]
    congr 1
    omega
  have h2 : ((rcs.take (2 * (spec.fullRounds / 2) + spec.partialRounds)).drop
        (spec.fullRounds / 2)).take spec.partialRounds =
      (rcs.drop (spec.fullRounds / 2)).take spec.partialRounds := by
    rw [List.drop_take, List.take_take]
    congr 1
    omega
  have h3 : ((rcs.take (2 * (spec.fullRounds / 2) + spec.partialRounds)).drop
        (spec.fullRounds / 2 + spec.partialRounds)).take (spec.fullRounds / 2) =
      (rcs.drop (spec.fullRounds / 2 + spec.partialRounds)).take (spec.fullRounds / 2) := by
    rw [List.drop_take, List.take_take]
    congr 1
    omega
  rw [h1, h2, h3]

/-- Witness for the amended C3 at a concrete instance. -/
theorem permute_ignores_excess_constants_witness :
    permute exSpecOdd exMds exRcs4 [1, 2, 3] =
      permute exSpecOdd exMds
        (exRcs4.take (2 * (exSpecOdd.fullRounds / 2) + exSpecOdd.partialRounds)) [1, 2, 3] :=
  permute_ignores_excess_constants exSpecOdd exMds exRcs4 [1, 2, 3] (by decide)

/-- Counterexample for C3: `exSpecOdd` has odd `full_rounds` and `exRcs4` has
length exactly `full_rounds + partial_rounds` — a contract violation the
claim says must fail fast — yet `hash` performs no check: it runs to
completion, returns a value, and that value does not even depend on the last
round constant, which the truncating `zip` silently drops. -/
theorem no_eager_check_cex :
    exSpecOdd.fullRounds % 2 = 1 ∧
    exRcs4.length = exSpecOdd.fullRounds + exSpecOdd.partialRounds ∧
    (Hash.hash exSpecOdd 3 2 2 exMds exRcs4 [6, 42]).isSome = true ∧
    Hash.hash exSpecOdd 3 2 2 exMds exRcs4 [6, 42] =
      Hash.hash exSpecOdd 3 2 2 exMds (exRcs4.take 3 ++ [[9, 9, 9]]) [6, 42] ∧
    exRcs4 ≠ exRcs4.take 3 ++ [[9, 9, 9]] := by
  refine ⟨rfl, rfl, ?_, ?_, by decide⟩ <;> decide

/-- C5: the three-branch transition of `Duplex::absorb`.  (1) absorbing with
a free slot writes the value into the first unset slot in slot order and
changes nothing else (no permutation); (2) absorbing with a full buffer runs
one duplex round on it, discards the round output, and restarts a fresh
buffer holding the value in slot 0; (3) in squeezing mode the unread output
is discarded and a fresh buffer holds the value in slot 0. -/
theorem absorb_three_branches (spec : Spec F) (rate : Nat) (d : Duplex F) (value : F) :
    (∀ (input : List (Option F)) (k : Nat), d.sponge = Sponge.Absorbing input →
      input[k]? = some none → (∀ j < k, input[j]? ≠ some none) →
      Duplex.absorb spec rate d value =
        { d with sponge := Sponge.Absorbing (input.set k (some value)) }) ∧
    (∀ input : List (Option F), d.sponge = Sponge.Absorbing input →
      (∀ x ∈ input, x ≠ none) →
      Duplex.absorb spec rate d value =
        { d with
          sponge := Sponge.Absorbing ((List.replicate rate none).set 0 (some value))
          state := permute spec d.mds_matrix d.round_constants (pad_and_add d.state input) }) ∧
    (∀ output : List (Option F), d.sponge = Sponge.Squeezing output →
      Duplex.absorb spec rate d value =
        { d with sponge := Sponge.Absorbing ((List.replicate rate none).set 0 (some value)) }) := by
  refine ⟨?_, ?_, ?_⟩
  · intro input k hsp hk hmin
    exact absorb_absorbing_set spec rate d input _ value hsp
      (set_first_unset_of_first value input k hk hmin)
  · intro input hsp hfull
    exact absorb_absorbing_full spec rate d input value hsp
      (set_first_unset_of_full value input hfull)
  · intro output hsp
    exact absorb_squeezing spec rate d output value hsp

/-- Witness for C5 at a concrete instance (first branch: slot 0 is set, slot
1 is the first unset slot). -/
theorem absorb_three_branches_witness :
    Duplex.absorb exSpec 2 exDuplex 7 =
      { exDuplex with sponge := Sponge.Absorbing [some 1, some 7] } :=
  (absorb_three_branches exSpec 2 exDuplex 7).1 [some 1, none] 1 rfl (by decide) (by decide)


/-- C8: with `RATE ≥ 1` and well-formed dimensions (`T = RATE + 1` state, a
`T`-row matrix), `squeeze` always returns within three loop iterations — the
explicit fuel of `Duplex.squeeze` — from any sponge mode, because a duplex
round always produces a fully-set `RATE`-sized output buffer. -/
theorem squeeze_terminates_fuel_three (spec : Spec F) (rate : Nat) (d : Duplex F)
    (hr : 1 ≤ rate) (hs : d.state.length = rate + 1) (hm : d.mds_matrix.length = rate + 1) :
    (∃ v d', squeeze_fuel spec rate 3 d = some (v, d')) ∧
    (∀ (st : List F) (input : List (Option F)), st.length = rate + 1 →
      (poseidon_duplex spec rate d.mds_matrix d.round_constants st input).2.length = rate ∧
      ∀ x ∈ (poseidon_duplex spec rate d.mds_matrix d.round_constants st input).2,
        x.isSome = true) := by
  constructor
  · cases hsp : d.sponge with
    | Absorbing input =>
      exact ⟨_, _, squeeze_fuel_from_absorbing spec rate 1 d input hsp hr hs hm⟩
    | Squeezing output =>
      cases hts : take_first_set output with
      | some p =>
        exact ⟨p.1, _, squeeze_fuel_set_slot spec rate 2 d output p.1 p.2 hsp (by rw [hts])⟩
      | none =>
        rw [squeeze_fuel_empty_slots spec rate 2 d output hsp hts]
        exact ⟨_, _, squeeze_fuel_from_absorbing spec rate 0 _
          (List.replicate rate none) rfl hr hs hm⟩
  · intro st input hst
    have hlen : (permute spec d.mds_matrix d.round_constants (pad_and_add st input)).length =
        rate + 1 :=
      permute_length _ _ _ _ _ (by rw [pad_and_add_length]; exact hst) hm
    have hout : (poseidon_duplex spec rate d.mds_matrix d.round_constants st input).2 =
        ((permute spec d.mds_matrix d.round_constants (pad_and_add st input)).take rate).map
          some :=
      poseidon_duplex_output spec rate _ _ _ _ (by rw [hlen]; exact Nat.le_succ rate)
    constructor
    · rw [hout, List.length_map, List.length_take, hlen]
      omega
    · intro x hx
      rw [hout, List.mem_map] at hx
      obtain ⟨y, -, rfl⟩ := hx
      rfl

/-- Witness for C8 at a concrete instance. -/
theorem squeeze_terminates_fuel_three_witness :
    ∃ v d', squeeze_fuel exSpec 2 3 exDuplexSq = some (v, d') :=
  (squeeze_terminates_fuel_three exSpec 2 exDuplexSq (by decide) (by decide) (by decide)).1

/-- C9: the FIFO shape invariant of the sponge buffer: `Duplex::new` starts
with an all-unset absorbing buffer (trivially a set-block-first buffer);
`absorb` preserves "set slots form a contiguous block at the front" of
absorbing buffers; `squeeze` (on a well-formed duplex) yields a buffer whose
set slots form a contiguous block at the back. -/
theorem sponge_buffer_shape_invariant (spec : Spec F) (t rate : Nat) (cap : F)
    (mds rcs : List (List F)) (d : Duplex F) (value : F) :
    sponge_shape (Duplex.new t rate cap mds rcs : Duplex F).sponge = true ∧
    (sponge_shape d.sponge = true →
      sponge_shape (Duplex.absorb spec rate d value).sponge = true) ∧
    (sponge_shape d.sponge = true → 1 ≤ rate → d.state.length = rate + 1 →
      d.mds_matrix.length = rate + 1 →
      ∀ (v : F) (d' : Duplex F), squeeze_fuel spec rate 3 d = some (v, d') →
        sponge_shape d'.sponge = true) := by
  refine ⟨?_, ?_, ?_⟩
  · show somes_then_nones (List.replicate rate (none : Option F)) = true
    exact somes_then_nones_replicate_none rate
  · intro hd
    cases hsp : d.sponge with
    | Absorbing input =>
      rw [hsp] at hd
      cases hset : set_first_unset value input with
      | some input' =>
        rw [absorb_absorbing_set spec rate d input input' value hsp hset]
        exact somes_then_nones_set_first value input input' hd hset
      | none =>
        rw [absorb_absorbing_full spec rate d input value hsp hset]
        exact somes_then_nones_fresh rate value
    | Squeezing output =>
      rw [absorb_squeezing spec rate d output value hsp]
      exact somes_then_nones_fresh rate value
  · intro hd hr hs hm v d' hsq
    cases hsp : d.sponge with
    | Absorbing input =>
      rw [show (3 : Nat) = 1 + 2 from rfl,
        squeeze_fuel_from_absorbing spec rate 1 d input hsp hr hs hm] at hsq
      simp only [Option.some.injEq, Prod.mk.injEq] at hsq
      obtain ⟨-, hd'⟩ := hsq
      subst hd'
      exact nones_then_somes_output _
    | Squeezing output =>
      rw [hsp] at hd
      cases hts : take_first_set output with
      | some p =>
        rw [squeeze_fuel_set_slot spec rate 2 d output p.1 p.2 hsp (by rw [hts])] at hsq
        simp only [Option.some.injEq, Prod.mk.injEq] at hsq
        obtain ⟨-, hd'⟩ := hsq
        subst hd'
        exact nones_then_somes_take_first output p.1 p.2 hd (by rw [hts])
      | none =>
        rw [squeeze_fuel_empty_slots spec rate 2 d output hsp hts] at hsq
        have h2 := squeeze_fuel_from_absorbing spec rate 0
          { d with sponge := Sponge.Absorbing (List.replicate rate none) }
          (List.replicate rate none) rfl hr hs hm
        rw [Nat.zero_add] at h2
        rw [h2] at hsq
        simp only [Option.some.injEq, Prod.mk.injEq] at hsq
        obtain ⟨-, hd'⟩ := hsq
        subst hd'
        exact nones_then_somes_output _

/-- Witness for C9 at a concrete instance (absorbing into a squeezing duplex
restores the absorbing shape). -/
theorem sponge_buffer_shape_invariant_witness :
    sponge_shape (Duplex.absorb exSpec 2 exDuplexSq 9).sponge = true :=
  (sponge_buffer_shape_invariant exSpec 3 2 0 exMds exRcs exDuplexSq 9).2.1 (by decide)


theorem take_one_of_ne_nil (l : List F) (h : l ≠ []) : l.take 1 = [l.headD 0] := by
  cases l with
  | nil => exact absurd rfl h
  | cons x xs => rfl

/-- C6: squeezing `RATE + 1` times with no intervening absorbs: the first
`RATE` calls return, in slot order, the output-buffer values of one duplex
round (the first `RATE` lanes of the permuted state), and the `(RATE+1)`-th
call triggers a second duplex round — fed the all-unset input buffer — and
returns lane 0 of the freshly permuted state, not a repeat of the previously
buffered output. -/
theorem squeeze_extended_output (spec : Spec F) (rate : Nat) (d : Duplex F)
    (input : List (Option F)) (hr : 1 ≤ rate)
    (hspg : d.sponge = Sponge.Absorbing input)
    (hs : d.state.length = rate + 1) (hm : d.mds_matrix.length = rate + 1) :
    ∃ d' : Duplex F,
      squeeze_n spec rate (rate + 1) d =
        some ((permute spec d.mds_matrix d.round_constants (pad_and_add d.state input)).take rate
            ++ (permute spec d.mds_matrix d.round_constants
                (pad_and_add
                  (permute spec d.mds_matrix d.round_constants (pad_and_add d.state input))
                  (List.replicate rate none))).take 1,
          d') := by
  set st1 := permute spec d.mds_matrix d.round_constants (pad_and_add d.state input)
    with hst1_def
  have hst1 : st1.length = rate + 1 :=
    permute_length _ _ _ _ _ (by rw [pad_and_add_length]; exact hs) hm
  set st2 := permute spec d.mds_matrix d.round_constants
      (pad_and_add st1 (List.replicate rate none)) with hst2_def
  have hst2 : st2.length = rate + 1 :=
    permute_length _ _ _ _ _ (by rw [pad_and_add_length]; exact hst1) hm
  obtain ⟨r, rfl⟩ : ∃ r, rate = r + 1 := ⟨rate - 1, by omega⟩
  obtain ⟨v, rest, hv⟩ :=
    List.exists_cons_of_ne_nil (List.ne_nil_of_length_pos (l := st1) (by omega))
  have hrest : rest.length = r + 1 := by
    rw [hv] at hst1
    simpa using hst1
  -- the duplex after the first squeeze
  have h1 := squeeze_fuel_from_absorbing spec (r + 1) 1 d input hspg hr hs hm
  rw [← hst1_def] at h1
  have hd1 : Duplex.squeeze spec (r + 1) d =
      some (st1.headD 0,
        { d with
          state := st1
          sponge := Sponge.Squeezing (((st1.take (r + 1)).map some).set 0 none) }) := h1
  have hbuf1 : ((st1.take (r + 1)).map some).set 0 none =
      List.replicate 1 (none : Option F) ++ (rest.take r).map some := by
    rw [hv, List.take_succ_cons, List.map_cons, List.set_cons_zero]
    rfl
  have hn1 : squeeze_n spec (r + 1) 1 d =
      some ([st1.headD 0],
        { d with
          state := st1
          sponge := Sponge.Squeezing (((st1.take (r + 1)).map some).set 0 none) }) := by
    rw [squeeze_n_succ, hd1, Option.some_bind, squeeze_n_zero]
    rfl
  -- the middle r squeezes drain the buffer in slot order
  have hcons := squeeze_n_consume spec (r + 1)
    { d with
      state := st1
      sponge := Sponge.Squeezing (((st1.take (r + 1)).map some).set 0 none) }
    1 (rest.take r) (by rw [← hbuf1])
  have hlen_take : (rest.take r).length = r := by
    rw [List.length_take]
    omega
  rw [hlen_take] at hcons
  -- the (RATE+1)-th squeeze runs a fresh duplex round on an all-unset buffer
  have h4 := squeeze_fuel_from_absorbing spec (r + 1) 0
    { d with
      state := st1
      sponge := Sponge.Absorbing (List.replicate (r + 1) none) }
    (List.replicate (r + 1) none) rfl hr hst1 hm
  rw [Nat.zero_add, ← hst2_def] at h4
  have hsq_last : Duplex.squeeze spec (r + 1)
      { d with
        state := st1
        sponge := Sponge.Squeezing (List.replicate (1 + r) (none : Option F)) } =
      some (st2.headD 0,
        { d with
          state := st2
          sponge := Sponge.Squeezing (((st2.take (r + 1)).map some).set 0 none) }) := by
    show squeeze_fuel spec (r + 1) (2 + 1) _ = _
    rw [squeeze_fuel_empty_slots spec (r + 1) 2 _ (List.replicate (1 + r) none) rfl
      (take_first_set_replicate_none _)]
    exact h4
  have hn_last : squeeze_n spec (r + 1) 1
      { d with
        state := st1
        sponge := Sponge.Squeezing (List.replicate (1 + r) (none : Option F)) } =
      some ([st2.headD 0],
        { d with
          state := st2
          sponge := Sponge.Squeezing (((st2.take (r + 1)).map some).set 0 none) }) := by
    rw [squeeze_n_succ, hsq_last, Option.some_bind, squeeze_n_zero]
    rfl
  refine ⟨{ d with
    state := st2
    sponge := Sponge.Squeezing (((st2.take (r + 1)).map some).set 0 none) }, ?_⟩
  rw [show r + 1 + 1 = 1 + (r + 1) from by omega, squeeze_n_add, hn1, Option.some_bind,
    squeeze_n_add, hcons, Option.some_bind, hn_last, Option.map_some']
  have hval : st1.headD 0 :: (rest.take r ++ [st2.headD 0]) =
      st1.take (r + 1) ++ st2.take 1 := by
    rw [take_one_of_ne_nil st2 (List.ne_nil_of_length_pos (by omega)), hv,
      List.take_succ_cons]
    rfl
  rw [← hval]
  rfl

/-- Witness for C6 at a concrete instance. -/
theorem squeeze_extended_output_witness :
    ∃ d' : Duplex Int,
      squeeze_n exSpec 2 3 exDuplex =
        some ((permute exSpec exDuplex.mds_matrix exDuplex.round_constants
              (pad_and_add exDuplex.state [some 1, none])).take 2
            ++ (permute exSpec exDuplex.mds_matrix exDuplex.round_constants
                (pad_and_add
                  (permute exSpec exDuplex.mds_matrix exDuplex.round_constants
                    (pad_and_add exDuplex.state [some 1, none]))
                  (List.replicate 2 none))).take 1,
          d') :=
  squeeze_extended_output exSpec 2 exDuplex [some 1, none] (by decide) rfl (by decide)
    (by decide)

/-! ## Machinery for the direct-construction equivalence (claim C2) -/

theorem set_replicate_last (n : Nat) (c : F) :
    (List.replicate (n + 1) (0 : F)).set n c = List.replicate n (0 : F) ++ [c] := by
  induction n with
  | zero => rfl
  | succ k ih =>
    rw [List.replicate_succ, List.set_cons_succ, ih]
    rfl

theorem head?_eq_some_headD (l : List F) (h : l ≠ []) : l.head? = some (l.headD 0) := by
  cases l with
  | nil => exact absurd rfl h
  | cons x xs => rfl

/-- Absorbing a message into a partially filled buffer (a block of set slots
followed by enough unset ones) appends it, slot by slot, with no duplex
round. -/
theorem absorb_fold (spec : Spec F) (rate : Nat) (msg : List F) :
    ∀ (d : Duplex F) (acc : List F) (m : Nat), msg.length ≤ m →
      d.sponge = Sponge.Absorbing (acc.map some ++ List.replicate m (none : Option F)) →
      msg.foldl (fun d v => Duplex.absorb spec rate d v) d =
        { d with sponge := Sponge.Absorbing ((acc ++ msg).map some ++
            List.replicate (m - msg.length) (none : Option F)) } := by
  induction msg with
  | nil =>
    intro d acc m _ hsp
    obtain ⟨sp, st, mm, rc⟩ := d
    simp only at hsp
    subst hsp
    simp
  | cons x xs ih =>
    intro d acc m hlen hsp
    obtain ⟨m', rfl⟩ : ∃ m', m = m' + 1 :=
      ⟨m - 1, by rw [List.length_cons] at hlen; omega⟩
    rw [List.foldl_cons]
    have hset : set_first_unset x (acc.map some ++ List.replicate (m' + 1) (none : Option F)) =
        some ((acc ++ [x]).map some ++ List.replicate m' (none : Option F)) := by
      rw [set_first_unset_skip_somes, List.replicate_succ]
      show some (acc.map some ++ (some x :: List.replicate m' none)) = _
      rw [List.map_append]
      simp
    rw [absorb_absorbing_set spec rate d _ _ x hsp hset]
    rw [ih _ (acc ++ [x]) m' (by rw [List.length_cons] at hlen; omega) rfl]
    obtain ⟨sp, st, mm, rc⟩ := d
    simp only [Duplex.mk.injEq, and_true, true_and]
    rw [List.append_assoc, List.singleton_append, List.length_cons, Nat.succ_sub_succ]

/-- Modelled from the spec (the direct construction of the
direct-construction equivalence property): build the full state
`[input_0, …, input_{L-1}, 0, …, 0, capacity]` directly, run the permutation
once, and read lane 0. -/
def direct_hash (spec : Spec F) (rate L : Nat) (mds rcs : List (List F))
    (message : List F) : Option F :=
  (permute spec mds rcs
    (message ++ List.replicate (rate - L) (0 : F) ++ [initial_capacity_element L])).head?

/-- C2: for a message of length `L ≤ RATE`, `Hash::init` followed by
`hash(message)` returns exactly the direct construction: the state
`[message_0, …, message_{L-1}, 0, …, 0, capacity]` (zero padding, the
domain's capacity element in lane `RATE`), permuted once, lane 0. -/
theorem hash_direct_equivalence (spec : Spec F) (rate L : Nat)
    (mds rcs : List (List F)) (message : List F)
    (hr : 1 ≤ rate) (hL : message.length = L) (hLr : L ≤ rate)
    (hm : mds.length = rate + 1) :
    Hash.hash spec (rate + 1) rate L mds rcs message =
      direct_hash spec rate L mds rcs message := by
  simp only [Hash.hash, Hash.init]
  have hfold := absorb_fold spec rate message (Duplex.new (rate + 1) rate
      (initial_capacity_element L) mds rcs) [] rate (by omega)
    (by simp [Duplex.new])
  rw [hfold]
  simp only [Duplex.new, List.nil_append, hL]
  have hsq := squeeze_fuel_from_absorbing spec rate 1
    (Duplex.mk
      (Sponge.Absorbing (message.map some ++ List.replicate (rate - L) (none : Option F)))
      ((List.replicate (rate + 1) (0 : F)).set rate (initial_capacity_element L)) mds rcs)
    (message.map some ++ List.replicate (rate - L) (none : Option F))
    rfl hr (by simp) hm
  show (squeeze_fuel spec rate 3 _).map Prod.fst = _
  rw [show (3 : Nat) = 1 + 2 from rfl, hsq, Option.map_some']
  have hpad : pad_and_add
      (List.replicate rate (0 : F) ++ [initial_capacity_element L])
      (message.map some ++ List.replicate (rate - L) (none : Option F)) =
      message ++ (List.replicate (rate - L) (0 : F) ++ [initial_capacity_element L]) := by
    have hsplit : List.replicate rate (0 : F) =
        List.replicate L (0 : F) ++ List.replicate (rate - L) (0 : F) := by
      rw [← List.replicate_add]
      congr 1
      omega
    rw [hsplit, List.append_assoc]
    rw [pad_and_add_append_block message (List.replicate L 0) _ _
      (by rw [List.length_replicate, hL])]
    rw [zipWith_add_replicate_zero message L hL, pad_and_add_replicate_none]
  show some ((permute spec mds rcs (pad_and_add
      ((List.replicate (rate + 1) (0 : F)).set rate (initial_capacity_element L))
      (message.map some ++ List.replicate (rate - L) (none : Option F)))).headD 0) = _
  rw [set_replicate_last rate (initial_capacity_element L), hpad]
  unfold direct_hash
  rw [List.append_assoc]
  refine (head?_eq_some_headD _ ?_).symm
  apply List.ne_nil_of_length_pos
  rw [permute_length spec mds rcs _ (rate + 1) (by simp; omega) hm]
  omega

/-- Witness for C2 at the Orchard-shaped concrete instance
(`T = 3`, `RATE = 2`, `L = 2`, message `[6, 42]`). -/
theorem hash_direct_equivalence_witness :
    Hash.hash exSpec 3 2 2 exMds exRcs [6, 42] =
      direct_hash exSpec 2 2 exMds exRcs [6, 42] :=
  hash_direct_equivalence exSpec 2 2 exMds exRcs [6, 42] (by decide) (by decide) (by decide)
    (by decide)

end Poseidon
